import Mathlib

/-!
# Verification of the rate-limited reader core

A shallow embedding of the Go package `rateLimitedReader`
(`src/reader.go`, with the drift-corrected variant `src/v7/reader.go`
and the unlimited-bypass variant `src/unnamed/part_000`).

Machine integers (`int64`, `int`) are modelled as `Int`; Go's integer
division truncates toward zero, which is `Int.tdiv` (Go panics on a zero
divisor; at every division site of the modelled code the divisor is
shown or assumed nonzero, where `Int.tdiv _ 0 = 0` is never relied on).
Wall-clock readings (`time.Now`, `time.Since`) are oracle inputs supplied
per loop iteration; durations are in nanoseconds, matching Go's
`time.Duration`.  The underlying `io.Reader` is modelled as a script: a
list of `(count, error)` results, one consumed per sub-read.  The
package-level mutable variable `ReadIntervalMilliseconds` is threaded as
the explicit `rim` argument of every function that reads it; its default
value is 50.
-/

namespace RateLimited

/-- Go integer division: truncation toward zero (`int64` division). -/
def goDiv (a b : Int) : Int := Int.tdiv a b

/-- `int64(time.Millisecond)`: nanoseconds per millisecond. -/
def nsPerMs : Int := 1000000

/-- `int64(time.Second)`: nanoseconds per second. -/
def nsPerSecond : Int := 1000000000

/-- The default value of the package-level variable
`ReadIntervalMilliseconds` (`src/reader.go` line 10). -/
def ReadIntervalMilliseconds : Int := 50

/-- A Go `error` value as seen by the read loop: either `io.EOF`
(end-of-data) or some other I/O error, distinguished by an opaque code. -/
inductive GoError : Type
  | eof : GoError
  | ioError (code : Nat) : GoError
deriving DecidableEq, Repr

/-- The result of one call to the underlying stream's `Read`:
a byte count `n` and an optional error (`none` models a Go `nil` error). -/
structure SubRead : Type where
  n : Int
  err : Option GoError
deriving DecidableEq, Repr

/-- The `RateLimitedReader` struct of `src/reader.go` lines 13-18.
The wrapped `io.ReadCloser` is modelled as an opaque handle `reader`;
`lastRead` is the `time.Time` timestamp in nanoseconds. -/
structure RateLimitedReader : Type where
  reader : Nat
  limit : Int
  lastRead : Int
  totalRead : Int
deriving DecidableEq, Repr

/-- `NewRateLimitedReader` (`src/reader.go` lines 20-25): stores the
stream and the initial limit; `lastRead` and `totalRead` are Go zero
values.  Note: the constructor receives no pacing-interval argument and
the struct stores none. -/
def NewRateLimitedReader (readerId : Nat) (limit : Int) : RateLimitedReader :=
  { reader := readerId, limit := limit, lastRead := 0, totalRead := 0 }

/-- `UpdateLimit` (`src/reader.go` lines 82-84): atomically stores the
new limit. -/
def RateLimitedReader.UpdateLimit (r : RateLimitedReader) (newLimit : Int) :
    RateLimitedReader :=
  { r with limit := newLimit }

/-- `GetCurrentTotalRead` (`src/reader.go` lines 86-88): atomically loads
the progress counter. -/
def RateLimitedReader.GetCurrentTotalRead (r : RateLimitedReader) : Int :=
  r.totalRead

/-- The per-sub-step quantities computed by `Read` (`src/reader.go`
lines 41-59) from the sampled limit, the buffer length and the progress
so far: the request size `allowedBytes`, the `delayFactor` flag, and
`expectedTime` in nanoseconds. -/
structure StepPlan : Type where
  allowedBytes : Int
  delayFactor : Int
  expectedTime : Int
deriving DecidableEq, Repr

/-- Lines 41-59 of `src/reader.go`: divide the sampled per-second limit
into the per-interval limit `goDiv limit (goDiv 1000 rim)`; a
non-positive result selects unlimited mode (`limit = chunkSize`,
`delayFactor = 0`); the request is the per-interval limit capped by the
remaining bytes; `expectedTime` is
`delayFactor * allowedBytes * rim * nsPerMs / limit`. -/
def readStepPlan (rim limit chunkSize totalRead : Int) : StepPlan :=
  let l := goDiv limit (goDiv 1000 rim)
  let ld : Int × Int := if l ≤ 0 then (chunkSize, 0) else (l, 1)
  let allowed : Int :=
    if chunkSize - totalRead < ld.1 then chunkSize - totalRead else ld.1
  { allowedBytes := allowed
    delayFactor := ld.2
    expectedTime := goDiv (ld.2 * allowed * rim * nsPerMs) ld.1 }

/-- Lines 60-64 of `src/reader.go`: sleep `expectedTime - elapsed` when
`elapsed < expectedTime`, otherwise do not sleep. -/
def sleepFor (expectedTime elapsed : Int) : Int :=
  if elapsed < expectedTime then expectedTime - elapsed else 0

/-- The wall-clock oracle and underlying-stream result for one loop
iteration: `elapsed` is the value of `time.Since(r.lastRead)` observed at
line 60, `now` the value of `time.Now()` stored at line 66, and `sub`
the underlying stream's answer at line 67. -/
structure StepInput : Type where
  elapsed : Int
  now : Int
  sub : SubRead
deriving DecidableEq, Repr

/-- How a modelled `Read` call ended: `returned count err` is an actual
return from the Go function; `outOfScript` means the finite script of
underlying-stream results was exhausted while the loop still wanted
more, so the model leaves the continuation unspecified. -/
inductive ReadResult : Type
  | returned (count : Int) (err : Option GoError) : ReadResult
  | outOfScript : ReadResult
deriving DecidableEq, Repr

/-- The observable trace of one `Read` call: the outcome, plus, per
sub-step in order, the request size handed to the underlying stream, the
slice bounds `(totalRead, totalRead + allowedBytes)` of `p` passed at
line 67, the sleep issued, the count obtained, and the value of the
atomic progress counter after the sub-step. -/
structure ReadTrace : Type where
  result : ReadResult
  requests : List Int
  slices : List (Int × Int)
  sleeps : List Int
  ns : List Int
  progress : List Int
  finalState : RateLimitedReader
deriving DecidableEq, Repr

/-- The loop of `Read` (`src/reader.go` lines 40-73), one script entry
consumed per iteration.  The loop samples `r.limit`, computes the step
plan, sleeps, stores `lastRead := now`, issues the sub-read, adds `n` to
the atomic progress counter, and breaks on a non-nil error (returning
the error with the accumulated count, line 75); it returns with a nil
error once the counter reaches `chunkSize`. -/
def readLoopGo (rim chunkSize : Int) :
    List StepInput → RateLimitedReader → ReadTrace
  | [], r =>
    if r.totalRead < chunkSize then
      { result := .outOfScript, requests := [], slices := [], sleeps := []
        ns := [], progress := [], finalState := r }
    else
      { result := .returned r.totalRead none, requests := [], slices := []
        sleeps := [], ns := [], progress := [], finalState := r }
  | inp :: rest, r =>
    if r.totalRead < chunkSize then
      let plan := readStepPlan rim r.limit chunkSize r.totalRead
      let slp := sleepFor plan.expectedTime inp.elapsed
      let r' : RateLimitedReader :=
        { r with lastRead := inp.now, totalRead := r.totalRead + inp.sub.n }
      match inp.sub.err with
      | some e =>
        { result := .returned r'.totalRead (some e)
          requests := [plan.allowedBytes]
          slices := [(r.totalRead, r.totalRead + plan.allowedBytes)]
          sleeps := [slp], ns := [inp.sub.n], progress := [r'.totalRead]
          finalState := r' }
      | none =>
        let t := readLoopGo rim chunkSize rest r'
        { result := t.result
          requests := plan.allowedBytes :: t.requests
          slices := (r.totalRead, r.totalRead + plan.allowedBytes) :: t.slices
          sleeps := slp :: t.sleeps
          ns := inp.sub.n :: t.ns
          progress := r'.totalRead :: t.progress
          finalState := t.finalState }
    else
      { result := .returned r.totalRead none, requests := [], slices := []
        sleeps := [], ns := [], progress := [], finalState := r }

/-- `Read` (`src/reader.go` lines 34-76): store 0 into the atomic
progress counter (lines 35-37), then run the loop. -/
def RateLimitedReader.Read (r : RateLimitedReader) (rim chunkSize : Int)
    (steps : List StepInput) : ReadTrace :=
  readLoopGo rim chunkSize steps { r with totalRead := 0 }

/-- The step plan an in-flight loop computes at its next iteration
(lines 40-57): it samples the current `limit` field and the current
progress counter. -/
def nextSubStepPlan (rim : Int) (r : RateLimitedReader) (chunkSize : Int) :
    StepPlan :=
  readStepPlan rim r.limit chunkSize r.totalRead

/-- A script is admissible for a run starting at progress `t` when every
sub-read the loop would issue answers with `0 ≤ n ≤` the length of the
slice it was handed (the `io.Reader` contract). -/
def admissibleFrom (rim limit chunkSize : Int) :
    List StepInput → Int → Bool
  | [], _ => true
  | inp :: rest, t =>
    if t < chunkSize then
      decide (0 ≤ inp.sub.n) &&
      decide (inp.sub.n ≤ (readStepPlan rim limit chunkSize t).allowedBytes) &&
      (match inp.sub.err with
       | some _ => true
       | none => admissibleFrom rim limit chunkSize rest (t + inp.sub.n))
    else true

/-- The `RateLimitedReader` struct of `src/v7/reader.go` lines 13-20:
the drift-corrected variant.  `lastElapsed`, `timeSlept` and
`timeAccumulated` are the timing-ledger fields, in nanoseconds. -/
structure V7State : Type where
  reader : Nat
  limit : Int
  iterTotalRead : Int
  lastElapsed : Int
  timeSlept : Int
  timeAccumulated : Int
deriving DecidableEq, Repr

/-- The `sleep` method of `src/v7/reader.go` lines 75-102: compute the
ideal time for `allowedBytes` at `iterLimit` bytes per interval; measure
`elapsed` from the ledger; reset the ledger when the gap exceeds one
second; issue `sleepTime = timeAccumulated - (elapsed - expectedTime)`
when positive, otherwise carry it in `timeAccumulated`.  Returns the
nanoseconds actually slept and the updated ledger state (`now` is the
oracle value of `time.Now().UnixNano()` at line 78). -/
def v7sleep (rim : Int) (s : V7State) (now allowedBytes iterLimit : Int) :
    Int × V7State :=
  let expectedTime := goDiv (allowedBytes * rim * nsPerMs) iterLimit
  let elapsed0 := now - s.lastElapsed - s.timeSlept
  let es : Int × V7State :=
    if nsPerSecond < elapsed0 then
      (0, { s with lastElapsed := now, timeSlept := 0, timeAccumulated := 0 })
    else (elapsed0, s)
  let sleepTime := es.2.timeAccumulated - (es.1 - expectedTime)
  if 0 < sleepTime then
    if es.1 = 0 then
      (sleepTime, { es.2 with timeAccumulated := 0
                              timeSlept := es.2.timeSlept + sleepTime })
    else
      (sleepTime, { es.2 with timeAccumulated := 0, timeSlept := 0
                              lastElapsed := now + sleepTime })
  else
    (0, { es.2 with timeAccumulated := sleepTime, timeSlept := 0
                    lastElapsed := now })

/-- Wall-clock oracle and stream result for one `v7` loop iteration. -/
structure V7StepInput : Type where
  now : Int
  sub : SubRead
deriving DecidableEq, Repr

/-- Observable trace of one `v7` `Read` call. -/
structure V7Trace : Type where
  result : ReadResult
  requests : List Int
  sleeps : List Int
  finalState : V7State
deriving DecidableEq, Repr

/-- The loop of `Read` in `src/v7/reader.go` lines 39-68.  A non-positive
sampled limit takes the `readWithoutLimit` branch (lines 43-47): one
sub-read over the whole remainder and an immediate return, without
touching the ledger; otherwise the per-interval limit, the capped
request, the `sleep` call and the sub-read, breaking on error. -/
def v7readLoop (rim chunkSize : Int) :
    List V7StepInput → V7State → V7Trace
  | [], s =>
    if s.iterTotalRead < chunkSize then
      { result := .outOfScript, requests := [], sleeps := [], finalState := s }
    else
      { result := .returned s.iterTotalRead none, requests := [], sleeps := []
        finalState := s }
  | inp :: rest, s =>
    if s.iterTotalRead < chunkSize then
      if s.limit ≤ 0 then
        let s' := { s with iterTotalRead := s.iterTotalRead + inp.sub.n }
        { result := .returned s'.iterTotalRead inp.sub.err
          requests := [chunkSize - s.iterTotalRead], sleeps := []
          finalState := s' }
      else
        let l := goDiv s.limit (goDiv 1000 rim)
        let left := chunkSize - s.iterTotalRead
        let allowed := if left < l then left else l
        let ss := v7sleep rim s inp.now allowed l
        let s2 := { ss.2 with iterTotalRead := ss.2.iterTotalRead + inp.sub.n }
        match inp.sub.err with
        | some e =>
          { result := .returned s2.iterTotalRead (some e)
            requests := [allowed], sleeps := [ss.1], finalState := s2 }
        | none =>
          let t := v7readLoop rim chunkSize rest s2
          { result := t.result
            requests := allowed :: t.requests
            sleeps := ss.1 :: t.sleeps
            finalState := t.finalState }
    else
      { result := .returned s.iterTotalRead none, requests := [], sleeps := []
        finalState := s }

/-- `Read` of `src/v7/reader.go` lines 39-68: store 0 into the
iteration counter, then run the loop. -/
def v7Read (s : V7State) (rim chunkSize : Int) (steps : List V7StepInput) :
    V7Trace :=
  v7readLoop rim chunkSize steps { s with iterTotalRead := 0 }

lemma goDiv_nonneg {a b : Int} (ha : 0 ≤ a) (hb : 0 ≤ b) : 0 ≤ goDiv a b :=
  Int.tdiv_nonneg ha hb

lemma goDiv_nonpos {a b : Int} (ha : a ≤ 0) (hb : 0 ≤ b) : goDiv a b ≤ 0 := by
  have h1 : 0 ≤ Int.tdiv (-a) b := Int.tdiv_nonneg (by omega) hb
  have h2 : Int.tdiv (-a) b = -Int.tdiv a b := Int.neg_tdiv a b
  unfold goDiv
  omega

lemma goDiv_small {a b : Int} (ha : 0 ≤ a) (hab : a < b) : goDiv a b = 0 :=
  Int.tdiv_eq_zero_of_lt ha hab

lemma readStepPlan_unlimited (rim limit cs t : Int)
    (h : goDiv limit (goDiv 1000 rim) ≤ 0) :
    readStepPlan rim limit cs t =
      { allowedBytes := if cs - t < cs then cs - t else cs
        delayFactor := 0
        expectedTime := 0 } := by
  simp only [readStepPlan]
  rw [if_pos h]
  simp [goDiv, Int.zero_tdiv]

lemma readStepPlan_limited (rim limit cs t : Int)
    (h : 0 < goDiv limit (goDiv 1000 rim)) :
    readStepPlan rim limit cs t =
      { allowedBytes :=
          if cs - t < goDiv limit (goDiv 1000 rim) then cs - t
          else goDiv limit (goDiv 1000 rim)
        delayFactor := 1
        expectedTime :=
          goDiv ((if cs - t < goDiv limit (goDiv 1000 rim) then cs - t
                  else goDiv limit (goDiv 1000 rim)) * rim * nsPerMs)
            (goDiv limit (goDiv 1000 rim)) } := by
  simp only [readStepPlan]
  rw [if_neg (not_le.mpr h)]
  simp [one_mul]

lemma allowedBytes_le_remaining (rim limit cs t : Int) :
    (readStepPlan rim limit cs t).allowedBytes ≤ cs - t := by
  simp only [readStepPlan]
  by_cases hl : goDiv limit (goDiv 1000 rim) ≤ 0 <;> simp [hl] <;>
    split <;> omega

lemma allowedBytes_pos (rim limit cs t : Int) (ht : 0 ≤ t) (htc : t < cs) :
    0 < (readStepPlan rim limit cs t).allowedBytes := by
  simp only [readStepPlan]
  by_cases hl : goDiv limit (goDiv 1000 rim) ≤ 0 <;> simp [hl] <;>
    split <;> omega

/-- C1.  With a positive sampled limit `L` and a non-empty remainder,
the sub-step requests exactly `min(remaining, L / (1000 / rim))` bytes
from the underlying stream, except in the degenerate case where the
integer division rounds to zero, which requests the entire remainder;
either way the request is strictly positive. -/
theorem spec_C1 (L cs t : Int) (_hL : 0 < L) (ht : 0 ≤ t) (htc : t < cs) :
    (goDiv L (goDiv 1000 ReadIntervalMilliseconds) = 0 →
      (readStepPlan ReadIntervalMilliseconds L cs t).allowedBytes = cs - t) ∧
    (0 < goDiv L (goDiv 1000 ReadIntervalMilliseconds) →
      (readStepPlan ReadIntervalMilliseconds L cs t).allowedBytes
        = min (cs - t) (goDiv L (goDiv 1000 ReadIntervalMilliseconds))) ∧
    0 < (readStepPlan ReadIntervalMilliseconds L cs t).allowedBytes := by
  refine ⟨?_, ?_, allowedBytes_pos _ _ _ _ ht htc⟩
  · intro h0
    rw [readStepPlan_unlimited _ _ _ _ (le_of_eq h0)]
    dsimp only
    split <;> omega
  · intro hpos
    rw [readStepPlan_limited _ _ _ _ hpos]
    dsimp only
    rw [min_def]
    split <;> split <;> omega

theorem spec_C1_witness :
    0 < (readStepPlan ReadIntervalMilliseconds 100 10 3).allowedBytes :=
  (spec_C1 100 10 3 (by decide) (by decide) (by decide)).2.2

/-- C9.  A positive limit strictly below `1000 / rim` (19 or fewer at
the default 50 ms interval) divides to a zero per-interval limit, so the
step plan is identical to unlimited mode: the request is the entire
remainder and the expected time is zero, hence no sleep. -/
theorem spec_C9 (L cs t e : Int) (h1 : 0 < L)
    (h2 : L < goDiv 1000 ReadIntervalMilliseconds) (he : 0 ≤ e) :
    readStepPlan ReadIntervalMilliseconds L cs t
      = readStepPlan ReadIntervalMilliseconds 0 cs t ∧
    sleepFor (readStepPlan ReadIntervalMilliseconds L cs t).expectedTime e = 0 ∧
    (0 ≤ t → t < cs →
      (readStepPlan ReadIntervalMilliseconds L cs t).allowedBytes = cs - t) := by
  have hq : goDiv L (goDiv 1000 ReadIntervalMilliseconds) = 0 :=
    goDiv_small (le_of_lt h1) h2
  have h0 : goDiv 0 (goDiv 1000 ReadIntervalMilliseconds) = 0 := by decide
  rw [readStepPlan_unlimited _ _ _ _ (le_of_eq hq),
    readStepPlan_unlimited _ _ _ _ (le_of_eq h0)]
  refine ⟨rfl, ?_, ?_⟩
  · have hne : ¬ (e < 0) := by omega
    simp [sleepFor, hne]
  · intro ht htc
    dsimp only
    split <;> omega

theorem spec_C9_witness :
    readStepPlan ReadIntervalMilliseconds 19 10 0
      = readStepPlan ReadIntervalMilliseconds 0 10 0 :=
  (spec_C9 19 10 0 7 (by decide) (by decide) (by decide)).1

lemma readLoopGo_count (rim cs : Int) :
    ∀ (steps : List StepInput) (r : RateLimitedReader) (c : Int)
      (e : Option GoError),
      (readLoopGo rim cs steps r).result = .returned c e →
      c = r.totalRead + ((readLoopGo rim cs steps r).ns).sum := by
  intro steps
  induction steps with
  | nil =>
    intro r c e h
    by_cases hc : r.totalRead < cs
    · simp [readLoopGo, hc] at h
    · simp [readLoopGo, hc] at h ⊢
      omega
  | cons inp rest ih =>
    intro r c e h
    by_cases hc : r.totalRead < cs
    · cases herr : inp.sub.err with
      | some e2 =>
        simp [readLoopGo, hc, herr] at h ⊢
        omega
      | none =>
        simp [readLoopGo, hc, herr] at h ⊢
        have h2 := ih { r with lastRead := inp.now
                               totalRead := r.totalRead + inp.sub.n } c e h
        simp at h2
        omega
    · simp [readLoopGo, hc] at h ⊢
      omega

lemma readLoopGo_none_ge (rim cs : Int) :
    ∀ (steps : List StepInput) (r : RateLimitedReader) (c : Int),
      (readLoopGo rim cs steps r).result = .returned c none → cs ≤ c := by
  intro steps
  induction steps with
  | nil =>
    intro r c h
    by_cases hc : r.totalRead < cs
    · simp [readLoopGo, hc] at h
    · simp [readLoopGo, hc] at h
      omega
  | cons inp rest ih =>
    intro r c h
    by_cases hc : r.totalRead < cs
    · cases herr : inp.sub.err with
      | some e2 => simp [readLoopGo, hc, herr] at h
      | none =>
        simp [readLoopGo, hc, herr] at h
        exact ih _ c h
    · simp [readLoopGo, hc] at h
      omega

/-- C3.  With a positive limit and a non-empty buffer, `Read` never
returns a zero count with a nil error: any actual return with count zero
carries an end-of-data or error signal.  Moreover the returned count is
exactly the sum of the counts obtained from the sub-reads, so bytes
obtained from a sub-read are never discarded. -/
theorem spec_C3 (r : RateLimitedReader) (cs : Int) (steps : List StepInput)
    (_hL : 0 < r.limit) (hcs : 0 < cs) :
    (¬ (r.Read 50 cs steps).result = .returned 0 none) ∧
    (∀ c e, (r.Read 50 cs steps).result = .returned c e →
      c = ((r.Read 50 cs steps).ns).sum) := by
  simp only [RateLimitedReader.Read]
  constructor
  · intro h
    have h2 := readLoopGo_none_ge 50 cs steps { r with totalRead := 0 } 0 h
    omega
  · intro c e h
    have h2 := readLoopGo_count 50 cs steps { r with totalRead := 0 } c e h
    simpa using h2

theorem spec_C3_witness :
    ¬ ((NewRateLimitedReader 0 100).Read 50 2
        [⟨0, 0, ⟨1, none⟩⟩, ⟨0, 0, ⟨1, none⟩⟩]).result = .returned 0 none :=
  (spec_C3 (NewRateLimitedReader 0 100) 2
    [⟨0, 0, ⟨1, none⟩⟩, ⟨0, 0, ⟨1, none⟩⟩] (by decide) (by decide)).1

lemma readLoopGo_err (rim cs : Int) (fail : StepInput) (e : GoError)
    (rest : List StepInput) (herr : fail.sub.err = some e) :
    ∀ (pre : List StepInput) (r : RateLimitedReader),
      (∀ inp ∈ pre, inp.sub.err = none ∧ 0 ≤ inp.sub.n) →
      r.totalRead + (pre.map fun i => i.sub.n).sum < cs →
      (readLoopGo rim cs (pre ++ fail :: rest) r).result
        = .returned
            (r.totalRead + (pre.map fun i => i.sub.n).sum + fail.sub.n)
            (some e) ∧
      (readLoopGo rim cs (pre ++ fail :: rest) r).ns
        = (pre.map fun i => i.sub.n) ++ [fail.sub.n] := by
  intro pre
  induction pre with
  | nil =>
    intro r _ hlt
    have hc : r.totalRead < cs := by simpa using hlt
    simp [readLoopGo, hc, herr]
  | cons p pre' ih =>
    intro r hpre hlt
    obtain ⟨hp1, hp2⟩ := hpre p (by simp)
    have hnn : 0 ≤ (pre'.map fun i => i.sub.n).sum := by
      apply List.sum_nonneg
      intro x hx
      obtain ⟨i, hi, rfl⟩ := List.mem_map.mp hx
      exact (hpre i (by simp [hi])).2
    have hc : r.totalRead < cs := by
      simp [List.map_cons, List.sum_cons] at hlt
      omega
    have ihs := ih { r with lastRead := p.now
                            totalRead := r.totalRead + p.sub.n }
      (fun i hi => hpre i (by simp [hi]))
      (by simp [List.map_cons, List.sum_cons] at hlt ⊢; omega)
    obtain ⟨ih1, ih2⟩ := ihs
    simp only [List.cons_append]
    constructor
    · simp [readLoopGo, hc, hp1]
      rw [show (readLoopGo rim cs (pre' ++ fail :: rest)
          { r with lastRead := p.now
                   totalRead := r.totalRead + p.sub.n }).result
        = _ from ih1]
      simp [ReadResult.returned.injEq]
      omega
    · simp [readLoopGo, hc, hp1]
      rw [show (readLoopGo rim cs (pre' ++ fail :: rest)
          { r with lastRead := p.now
                   totalRead := r.totalRead + p.sub.n }).ns
        = _ from ih2]

/-- C4.  When a sub-read answers with a non-end-of-data error after a
prefix of successful sub-reads, `Read` stops at that sub-step and
returns exactly that error together with the partial count accumulated
so far (including the failing sub-read's own count); the trace shows no
further sub-read was issued. -/
theorem spec_C4 (r : RateLimitedReader) (cs : Int) (pre rest : List StepInput)
    (fail : StepInput) (e : GoError)
    (hpre : ∀ inp ∈ pre, inp.sub.err = none ∧ 0 ≤ inp.sub.n)
    (herr : fail.sub.err = some e) (_hne : e ≠ GoError.eof)
    (hlt : (pre.map fun i => i.sub.n).sum < cs) :
    (r.Read 50 cs (pre ++ fail :: rest)).result
      = .returned ((pre.map fun i => i.sub.n).sum + fail.sub.n) (some e) ∧
    (r.Read 50 cs (pre ++ fail :: rest)).ns
      = (pre.map fun i => i.sub.n) ++ [fail.sub.n] := by
  simp only [RateLimitedReader.Read]
  have h := readLoopGo_err 50 cs fail e rest herr pre { r with totalRead := 0 }
    hpre (by simpa using hlt)
  simpa using h

theorem spec_C4_witness :
    ((NewRateLimitedReader 0 100).Read 50 5
        [⟨0, 0, ⟨1, none⟩⟩, ⟨0, 0, ⟨0, some (GoError.ioError 3)⟩⟩]).result
      = .returned 1 (some (GoError.ioError 3)) := by
  have h := (spec_C4 (NewRateLimitedReader 0 100) 5 [⟨0, 0, ⟨1, none⟩⟩] []
    ⟨0, 0, ⟨0, some (GoError.ioError 3)⟩⟩ (GoError.ioError 3)
    (by decide) (by decide) (by decide) (by decide)).1
  simpa using h

lemma readLoopGo_progress (rim cs : Int) :
    ∀ (steps : List StepInput) (r : RateLimitedReader),
      (∀ inp ∈ steps, 0 ≤ inp.sub.n) →
      List.Chain' (· ≤ ·)
        (r.totalRead :: (readLoopGo rim cs steps r).progress) ∧
      (∀ c e, (readLoopGo rim cs steps r).result = .returned c e →
        (∀ x ∈ r.totalRead :: (readLoopGo rim cs steps r).progress, x ≤ c) ∧
        (readLoopGo rim cs steps r).finalState.totalRead = c) := by
  intro steps
  induction steps with
  | nil =>
    intro r _
    by_cases hc : r.totalRead < cs
    · refine ⟨by simp [readLoopGo, hc], ?_⟩
      intro c e h
      simp [readLoopGo, hc] at h
    · refine ⟨by simp [readLoopGo, hc], ?_⟩
      intro c e h
      simp [readLoopGo, hc] at h ⊢
      omega
  | cons inp rest ih =>
    intro r hn
    have hn0 : 0 ≤ inp.sub.n := hn inp (by simp)
    have hnrest : ∀ i ∈ rest, 0 ≤ i.sub.n := fun i hi => hn i (by simp [hi])
    by_cases hc : r.totalRead < cs
    · cases herr : inp.sub.err with
      | some e2 =>
        constructor
        · simp [readLoopGo, hc, herr]
          omega
        · intro c e h
          simp [readLoopGo, hc, herr] at h ⊢
          omega
      | none =>
        have IH := ih { r with lastRead := inp.now
                               totalRead := r.totalRead + inp.sub.n } hnrest
        constructor
        · have h1 := IH.1
          simp only [] at h1
          simp [readLoopGo, hc, herr, List.chain'_cons]
          exact ⟨by omega, h1⟩
        · intro c e h
          simp [readLoopGo, hc, herr] at h ⊢
          obtain ⟨hA, hB⟩ := IH.2 c e h
          simp at hA
          refine ⟨⟨by omega, by omega, hA.2⟩, hB⟩
    · refine ⟨by simp [readLoopGo, hc], ?_⟩
      intro c e h
      simp [readLoopGo, hc] at h ⊢
      omega

/-- C6.  With well-behaved sub-reads (non-negative counts), the atomic
progress counter sampled by `GetCurrentTotalRead` starts at zero, is
monotonically non-decreasing across the sub-steps of one `Read` call,
never exceeds the count the call eventually returns, and ends equal to
that count. -/
theorem spec_C6 (r : RateLimitedReader) (cs : Int) (steps : List StepInput)
    (hn : ∀ inp ∈ steps, 0 ≤ inp.sub.n) :
    List.Chain' (· ≤ ·) (0 :: (r.Read 50 cs steps).progress) ∧
    (∀ c e, (r.Read 50 cs steps).result = .returned c e →
      (∀ x ∈ (0 : Int) :: (r.Read 50 cs steps).progress, x ≤ c) ∧
      (r.Read 50 cs steps).finalState.GetCurrentTotalRead = c) := by
  simp only [RateLimitedReader.Read, RateLimitedReader.GetCurrentTotalRead]
  have h := readLoopGo_progress 50 cs steps { r with totalRead := 0 } hn
  simpa using h

theorem spec_C6_witness :
    List.Chain' (· ≤ ·)
      (0 :: ((NewRateLimitedReader 0 100).Read 50 2
        [⟨0, 0, ⟨1, none⟩⟩, ⟨0, 0, ⟨1, none⟩⟩]).progress) :=
  (spec_C6 (NewRateLimitedReader 0 100) 2
    [⟨0, 0, ⟨1, none⟩⟩, ⟨0, 0, ⟨1, none⟩⟩] (by decide)).1

lemma readLoopGo_bounds (rim cs : Int) :
    ∀ (steps : List StepInput) (r : RateLimitedReader),
      admissibleFrom rim r.limit cs steps r.totalRead = true →
      0 ≤ r.totalRead → r.totalRead ≤ cs →
      (∀ ab ∈ (readLoopGo rim cs steps r).slices,
        0 ≤ ab.1 ∧ ab.1 ≤ ab.2 ∧ ab.2 ≤ cs) ∧
      (∀ c e, (readLoopGo rim cs steps r).result = .returned c e →
        0 ≤ c ∧ c ≤ cs) := by
  intro steps
  induction steps with
  | nil =>
    intro r _ h0 hcs
    by_cases hc : r.totalRead < cs
    · refine ⟨by simp [readLoopGo, hc], ?_⟩
      intro c e h
      simp [readLoopGo, hc] at h
    · refine ⟨by simp [readLoopGo, hc], ?_⟩
      intro c e h
      simp [readLoopGo, hc] at h
      omega
  | cons inp rest ih =>
    intro r hadm h0 hcs
    by_cases hc : r.totalRead < cs
    · have hpos := allowedBytes_pos rim r.limit cs r.totalRead h0 hc
      have hle := allowedBytes_le_remaining rim r.limit cs r.totalRead
      cases herr : inp.sub.err with
      | some e2 =>
        simp [admissibleFrom, hc, herr] at hadm
        obtain ⟨hn0, hnle⟩ := hadm
        constructor
        · simp [readLoopGo, hc, herr]
          omega
        · intro c e h
          simp [readLoopGo, hc, herr] at h
          omega
      | none =>
        simp [admissibleFrom, hc, herr] at hadm
        obtain ⟨⟨hn0, hnle⟩, hadm2⟩ := hadm
        have IH := ih { r with lastRead := inp.now
                               totalRead := r.totalRead + inp.sub.n }
          (by simpa using hadm2) (by simp; omega) (by simp; omega)
        constructor
        · simp [readLoopGo, hc, herr]
          refine ⟨⟨h0, by omega, by omega⟩, ?_⟩
          intro a b hab
          exact IH.1 (a, b) hab
        · intro c e h
          simp [readLoopGo, hc, herr] at h
          exact IH.2 c e h
    · refine ⟨by simp [readLoopGo, hc], ?_⟩
      intro c e h
      simp [readLoopGo, hc] at h
      omega

/-- C10.  Under the `io.Reader` contract (each sub-read answers with
`0 ≤ n ≤` the slice length it was given), every slicing of the caller's
buffer performed at line 67 is in bounds (`0 ≤ totalRead ≤
totalRead + allowedBytes ≤ len p`), the returned count never exceeds
`len p`, and a zero-length buffer returns count 0 with a nil error, no
sleep and no sub-read. -/
theorem spec_C10 (r : RateLimitedReader) (cs : Int) (steps : List StepInput)
    (hcs : 0 ≤ cs)
    (hadm : admissibleFrom 50 r.limit cs steps 0 = true) :
    (∀ ab ∈ (r.Read 50 cs steps).slices,
      0 ≤ ab.1 ∧ ab.1 ≤ ab.2 ∧ ab.2 ≤ cs) ∧
    (∀ c e, (r.Read 50 cs steps).result = .returned c e →
      0 ≤ c ∧ c ≤ cs) ∧
    (cs = 0 → (r.Read 50 cs steps).result = .returned 0 none ∧
      (r.Read 50 cs steps).sleeps = [] ∧ (r.Read 50 cs steps).ns = []) := by
  have h := readLoopGo_bounds 50 cs steps { r with totalRead := 0 }
    (by simpa using hadm) (by simp) (by simpa using hcs)
  simp only [RateLimitedReader.Read]
  refine ⟨h.1, h.2, ?_⟩
  intro h0
  subst h0
  cases steps with
  | nil => simp [readLoopGo]
  | cons inp rest => simp [readLoopGo]

theorem spec_C10_witness :
    (0 : Int) ≤ 3 ∧ (3 : Int) ≤ 3 :=
  (spec_C10 (NewRateLimitedReader 0 100) 3 [⟨0, 0, ⟨3, none⟩⟩]
    (by decide) (by decide)).2.1 3 none (by decide)

lemma readLoopGo_sleep0 (rim cs : Int) :
    ∀ (steps : List StepInput) (r : RateLimitedReader),
      goDiv r.limit (goDiv 1000 rim) ≤ 0 →
      0 ≤ r.totalRead →
      (∀ inp ∈ steps, 0 ≤ inp.sub.n ∧ 0 ≤ inp.elapsed) →
      (∀ x ∈ (readLoopGo rim cs steps r).sleeps, x = 0) ∧
      (∀ ab ∈ (readLoopGo rim cs steps r).slices, ab.2 = cs) := by
  intro steps
  induction steps with
  | nil =>
    intro r _ _ _
    by_cases hc : r.totalRead < cs <;> simp [readLoopGo, hc]
  | cons inp rest ih =>
    intro r hq h0 hsteps
    obtain ⟨hn0, he0⟩ := hsteps inp (by simp)
    have hrest : ∀ i ∈ rest, 0 ≤ i.sub.n ∧ 0 ≤ i.elapsed :=
      fun i hi => hsteps i (by simp [hi])
    by_cases hc : r.totalRead < cs
    · have hplan := readStepPlan_unlimited rim r.limit cs r.totalRead hq
      have hsleep :
          sleepFor (readStepPlan rim r.limit cs r.totalRead).expectedTime
            inp.elapsed = 0 := by
        rw [hplan]
        unfold sleepFor
        dsimp only
        rw [if_neg (by omega)]
      have hslice :
          r.totalRead + (readStepPlan rim r.limit cs r.totalRead).allowedBytes
            = cs := by
        rw [hplan]
        dsimp only
        split <;> omega
      have IH := ih { r with lastRead := inp.now
                             totalRead := r.totalRead + inp.sub.n }
        (by simpa using hq) (by simp; omega) hrest
      cases herr : inp.sub.err with
      | some e2 =>
        simp [readLoopGo, hc, herr, hsleep, hslice]
      | none =>
        simp [readLoopGo, hc, herr, hsleep, hslice]
        constructor
        · exact IH.1
        · intro a b hab
          exact IH.2 (a, b) hab
    · simp [readLoopGo, hc]

/-- C2.  A non-positive sampled limit performs no sleep: in
`src/reader.go` every sub-step's computed sleep is zero and every
sub-read is issued over the entire remaining buffer; and in the
drift-corrected `src/v7/reader.go` the unlimited branch returns after a
single whole-remainder sub-read without touching any of the
timing-ledger fields, so the only blocking is the underlying stream's
own read. -/
theorem spec_C2 (r : RateLimitedReader) (cs : Int) (steps : List StepInput)
    (hL : r.limit ≤ 0)
    (hsteps : ∀ inp ∈ steps, 0 ≤ inp.sub.n ∧ 0 ≤ inp.elapsed) :
    (∀ x ∈ (r.Read 50 cs steps).sleeps, x = 0) ∧
    (∀ ab ∈ (r.Read 50 cs steps).slices, ab.2 = cs) ∧
    (∀ (s : V7State) (inp : V7StepInput) (rest : List V7StepInput),
      s.limit ≤ 0 → 0 < cs →
      (v7Read s 50 cs (inp :: rest)).sleeps = [] ∧
      (v7Read s 50 cs (inp :: rest)).requests = [cs] ∧
      (v7Read s 50 cs (inp :: rest)).result
        = .returned inp.sub.n inp.sub.err ∧
      (v7Read s 50 cs (inp :: rest)).finalState.lastElapsed = s.lastElapsed ∧
      (v7Read s 50 cs (inp :: rest)).finalState.timeSlept = s.timeSlept ∧
      (v7Read s 50 cs (inp :: rest)).finalState.timeAccumulated
        = s.timeAccumulated) := by
  have hq : goDiv r.limit (goDiv 1000 50) ≤ 0 := goDiv_nonpos hL (by decide)
  have h := readLoopGo_sleep0 50 cs steps { r with totalRead := 0 }
    (by simpa using hq) (by simp) hsteps
  simp only [RateLimitedReader.Read]
  refine ⟨h.1, h.2, ?_⟩
  intro s inp rest hs hcs
  simp [v7Read, v7readLoop, hcs, hs]

theorem spec_C2_witness :
    (v7Read ⟨0, 0, 9, 5, 6, 7⟩ 50 4 [⟨0, ⟨4, none⟩⟩]).requests = [4] :=
  ((spec_C2 (NewRateLimitedReader 0 0) 4 [⟨0, 0, ⟨4, none⟩⟩]
      (by decide) (by decide)).2.2
    ⟨0, 0, 9, 5, 6, 7⟩ ⟨0, ⟨4, none⟩⟩ [] (by decide) (by decide)).2.1

/-- C5.  The drift-corrected `sleep` of `src/v7/reader.go`: when the gap
since the last sub-step is at most one second, the sleep issued is the
ideal delivery time for the allowed bytes minus the elapsed time plus
the carried credit/debt, clamped at zero, and a non-positive value is
carried forward in `timeAccumulated` while a positive sleep clears it;
when the gap exceeds one second, the ledger resets to a neutral state
(`timeAccumulated = 0`, fresh `lastElapsed = now`) and the sleep is just
the ideal time for this step, so the pause is not paid back with a
burst. -/
theorem spec_C5 (s : V7State) (now a L : Int) (ha : 0 ≤ a) (hL : 0 < L) :
    (now - s.lastElapsed - s.timeSlept ≤ nsPerSecond →
      (v7sleep 50 s now a L).1
        = max 0 (s.timeAccumulated + (goDiv (a * 50 * nsPerMs) L
            - (now - s.lastElapsed - s.timeSlept))) ∧
      (s.timeAccumulated + (goDiv (a * 50 * nsPerMs) L
          - (now - s.lastElapsed - s.timeSlept)) ≤ 0 →
        (v7sleep 50 s now a L).2.timeAccumulated
          = s.timeAccumulated + (goDiv (a * 50 * nsPerMs) L
              - (now - s.lastElapsed - s.timeSlept))) ∧
      (0 < s.timeAccumulated + (goDiv (a * 50 * nsPerMs) L
          - (now - s.lastElapsed - s.timeSlept)) →
        (v7sleep 50 s now a L).2.timeAccumulated = 0)) ∧
    (nsPerSecond < now - s.lastElapsed - s.timeSlept →
      (v7sleep 50 s now a L).1 = goDiv (a * 50 * nsPerMs) L ∧
      (v7sleep 50 s now a L).2.timeAccumulated = 0 ∧
      (v7sleep 50 s now a L).2.lastElapsed = now) := by
  have hE : 0 ≤ goDiv (a * 50 * nsPerMs) L :=
    goDiv_nonneg
      (mul_nonneg (mul_nonneg ha (by norm_num)) (by norm_num [nsPerMs]))
      (le_of_lt hL)
  constructor
  · intro hle
    simp only [v7sleep]
    rw [if_neg (not_lt.mpr hle)]
    dsimp only
    by_cases hst : 0 < s.timeAccumulated
        - (now - s.lastElapsed - s.timeSlept - goDiv (a * 50 * nsPerMs) L)
    · rw [if_pos hst]
      by_cases h0 : now - s.lastElapsed - s.timeSlept = 0
      · rw [if_pos h0]
        refine ⟨?_, by omega, by intro _; rfl⟩
        dsimp only
        rw [max_def]
        split <;> omega
      · rw [if_neg h0]
        refine ⟨?_, by omega, by intro _; rfl⟩
        dsimp only
        rw [max_def]
        split <;> omega
    · rw [if_neg hst]
      refine ⟨?_, by intro _; dsimp only; omega, by omega⟩
      dsimp only
      rw [max_def]
      split <;> omega
  · intro hgt
    simp only [v7sleep]
    rw [if_pos hgt]
    dsimp only
    by_cases hE0 : 0 < goDiv (a * 50 * nsPerMs) L
    · rw [if_pos (by omega), if_pos rfl]
      refine ⟨by omega, rfl, rfl⟩
    · rw [if_neg (by omega)]
      refine ⟨by omega, by dsimp only; omega, rfl⟩

theorem spec_C5_witness :
    (v7sleep 50 ⟨0, 100, 0, 0, 0, 0⟩ 10 5 2).2.timeAccumulated = 0 :=
  ((spec_C5 ⟨0, 100, 0, 0, 0, 0⟩ 10 5 2 (by decide) (by decide)).1
    (by decide)).2.2 (by decide)

/-- C7.  `UpdateLimit v` stores `v` into the limit field and changes
nothing else — progress counter, last-read timestamp and stream handle
are untouched — and the very next sub-step of an in-flight loop computes
its plan (and hence its request) from the new value. -/
theorem spec_C7 (r : RateLimitedReader) (v : Int) :
    (r.UpdateLimit v).limit = v ∧
    (r.UpdateLimit v).totalRead = r.totalRead ∧
    (r.UpdateLimit v).lastRead = r.lastRead ∧
    (r.UpdateLimit v).reader = r.reader ∧
    (∀ cs, nextSubStepPlan 50 (r.UpdateLimit v) cs
      = readStepPlan 50 v cs r.totalRead) ∧
    (∀ cs (inp : StepInput) (rest : List StepInput), r.totalRead < cs →
      (readLoopGo 50 cs (inp :: rest) (r.UpdateLimit v)).requests.head?
        = some (readStepPlan 50 v cs r.totalRead).allowedBytes) := by
  refine ⟨rfl, rfl, rfl, rfl, fun cs => rfl, ?_⟩
  intro cs inp rest hc
  cases herr : inp.sub.err <;>
    simp [readLoopGo, RateLimitedReader.UpdateLimit, hc, herr]

theorem spec_C7_witness :
    (readLoopGo 50 4 [⟨0, 0, ⟨1, none⟩⟩]
        ((NewRateLimitedReader 0 3).UpdateLimit 7)).requests.head?
      = some (readStepPlan 50 7 4 0).allowedBytes :=
  (spec_C7 (NewRateLimitedReader 0 3) 7).2.2.2.2.2 4 ⟨0, 0, ⟨1, none⟩⟩ []
    (by decide)

/-- C8 counterexample.  The pacing interval is the package-level mutable
variable `ReadIntervalMilliseconds` (modelled as the ambient `rim`
argument), not a field of the constructed instance: the very same
constructed reader computes a different next-sub-step plan when the
global holds 50 than when it holds 100, refuting the claim that pacing
cannot be altered after construction by mutating shared global state. -/
theorem spec_C8_counterexample :
    nextSubStepPlan 50 (NewRateLimitedReader 0 1000) 4096
      ≠ nextSubStepPlan 100 (NewRateLimitedReader 0 1000) 4096 := by
  decide

/-- C8 amended.  The constructor stores only the stream handle and the
initial limit; the pacing of a constructed instance is a function of the
ambient package-level interval value, and mutating that shared value
changes the pacing of an already-constructed instance. -/
theorem spec_C8_amended :
    (∀ (sid : Nat) (L cs rim : Int),
      nextSubStepPlan rim (NewRateLimitedReader sid L) cs
        = readStepPlan rim L cs 0) ∧
    (∀ (sid : Nat) (L : Int), (NewRateLimitedReader sid L).limit = L ∧
      (NewRateLimitedReader sid L).totalRead = 0) ∧
    nextSubStepPlan 50 (NewRateLimitedReader 1 1000) 4096
      ≠ nextSubStepPlan 100 (NewRateLimitedReader 1 1000) 4096 := by
  refine ⟨fun sid L cs rim => rfl, fun sid L => ⟨rfl, rfl⟩, by decide⟩

end RateLimited
